import Mathlib

/-!
Verification of the version-bump core of the `next-version` GitHub action.

The JavaScript sources are shallowly embedded here:
* `src/util.js` — label scan (`getVersionToIncrement`), the version resolver
  (`getNextVersion`, `isMainVersionAhead`, `isVersionBumpedCorrectly`,
  `incrementVersion`) and the base64 helpers (`encode` / `decode`);
* `src/handler.js` — the per-format version extraction and substitution
  (`handlePOM`, `handleGradle`, `handlePackageJSON`) and the dispatch in
  `Handler.handle`.

Strings are modelled as `List Char`.  JavaScript numbers, as produced by
`parseInt` and the integer arithmetic used in the sources, are modelled by
`JsNum` (an integer or `NaN`).  Thrown exceptions are modelled with `Except`,
one constructor per distinct `throw` site.
-/

deriving instance DecidableEq for Except

namespace NextVersion

/-- Convenience: the character list of a string literal. -/
def chars (s : String) : List Char := s.toList

/-! ## JavaScript numbers

`parseInt` returns either an integer or `NaN`; the arithmetic and
comparisons in `util.js` only ever see such values. -/

/-- A JavaScript number as it occurs in `util.js`: an integer or `NaN`. -/
inductive JsNum where
  | nan : JsNum
  | int : Int → JsNum
deriving DecidableEq

/-- JavaScript `+` on numbers (`NaN` propagates). -/
def jsAdd : JsNum → JsNum → JsNum
  | .int a, .int b => .int (a + b)
  | _, _ => .nan

/-- JavaScript `-` on numbers (`NaN` propagates). -/
def jsSub : JsNum → JsNum → JsNum
  | .int a, .int b => .int (a - b)
  | _, _ => .nan

/-- JavaScript `>` on numbers: any comparison with `NaN` is `false`. -/
def jsGt : JsNum → JsNum → Bool
  | .int a, .int b => decide (a > b)
  | _, _ => false

/-- JavaScript `===` on numbers: `NaN === NaN` is `false`. -/
def jsEqNum : JsNum → JsNum → Bool
  | .int a, .int b => decide (a = b)
  | _, _ => false

/-! ## Decimal rendering (JavaScript template-literal `${n}`) -/

/-- The decimal digit characters. -/
def digitChar : Nat → Char
  | 0 => '0'
  | 1 => '1'
  | 2 => '2'
  | 3 => '3'
  | 4 => '4'
  | 5 => '5'
  | 6 => '6'
  | 7 => '7'
  | 8 => '8'
  | 9 => '9'
  | _ => '*'

/-- Little-endian decimal digits of `n`, `[]` when `n = 0`; `fuel`-guarded
structural recursion (`fuel ≥ n` is always enough). -/
def natToDecAux : Nat → Nat → List Char
  | 0, _ => []
  | fuel + 1, n => if n = 0 then [] else digitChar (n % 10) :: natToDecAux fuel (n / 10)

/-- The decimal numeral of `n`, as JavaScript renders a non-negative integer. -/
def natToDec (n : Nat) : List Char :=
  if n = 0 then ['0'] else (natToDecAux (n + 1) n).reverse

/-- The decimal numeral of an integer, as JavaScript renders it. -/
def intToDec (i : Int) : List Char :=
  if i < 0 then '-' :: natToDec i.natAbs else natToDec i.toNat

/-- JavaScript string interpolation of a number. -/
def numToStr : JsNum → List Char
  | .nan => chars "NaN"
  | .int i => intToDec i

/-! ## `parseInt` (decimal) -/

/-- Numeric value of a decimal digit character. -/
def digitVal (c : Char) : Nat := c.toNat - 48

/-- Value of a big-endian digit string. -/
def digitsToNat (l : List Char) : Nat := l.foldl (fun a c => 10 * a + digitVal c) 0

/-- The whitespace characters `parseInt` skips (the ones relevant here). -/
def isJsSpace (c : Char) : Bool := c = ' ' || c = '\t' || c = '\n' || c = '\r'

/-- JavaScript `parseInt(s)` restricted to decimal numerals: skip leading
whitespace, an optional sign, then the longest leading digit run; `NaN` when
that run is empty.  (`parseInt(undefined)` is modelled by `jsParseInt []`,
which is also `NaN`.) -/
def jsParseInt (s : List Char) : JsNum :=
  let s1 := s.dropWhile isJsSpace
  let neg : Bool := s1.head? = some '-'
  let s2 := if s1.head? = some '-' ∨ s1.head? = some '+' then s1.tail else s1
  let ds := s2.takeWhile Char.isDigit
  if ds = [] then .nan
  else if neg then .int (-(digitsToNat ds : Int)) else .int (digitsToNat ds)

/-! ## `String.prototype.split('.')` -/

/-- JavaScript `s.split('.')`: the (possibly empty) chunks between `'.'`
separators; `"".split('.')` is `[""]`. -/
def splitDot : List Char → List (List Char)
  | [] => [[]]
  | c :: cs =>
    if c = '.' then [] :: splitDot cs
    else
      match splitDot cs with
      | [] => [[c]]
      | h :: t => (c :: h) :: t

/-! ## The increment class and the resolver's error taxonomy -/

/-- The increment class.  In `util.js` this is one of the strings
`'major'`, `'minor'`, `'patch'`, the only values `getVersionToIncrement`
ever produces. -/
inductive Inc where
  | major
  | minor
  | patch
deriving DecidableEq

/-- The distinct `throw` sites of `util.js`, one constructor per message:
* `invalidMainVersion` — `InvalidVersionError` "Main version does not follow
  semantic versioning of major.minor.patch" (first check of `getNextVersion`);
* `invalidCurrentVersion` — `InvalidVersionError` "Version does not follow
  semantic versioning of major.minor.patch" (second check);
* `invalidIncrementInput` — `InvalidVersionError` thrown by
  `incrementVersion` itself ("... major.minor.patch: ${currentVersion}");
* `alreadyIncremented` — `VersionAlreadyIncrementedError`. -/
inductive VerErr where
  | invalidMainVersion
  | invalidCurrentVersion
  | invalidIncrementInput
  | alreadyIncremented
deriving DecidableEq

/-! ## `util.js` -/

/-- `util.js` `getVersionToIncrement(labels)`: scan the PR label names,
defaulting to `'patch'`; each `'version:major'` overwrites the accumulator
with `'major'`, each `'version:minor'` with `'minor'` (a plain loop with
reassignment, i.e. a left fold). -/
def getVersionToIncrement (labels : List (List Char)) : Inc :=
  labels.foldl
    (fun versionToIncrement name =>
      if name = chars "version:major" then .major
      else if name = chars "version:minor" then .minor
      else versionToIncrement)
    .patch

/-- `util.js` `incrementVersion(currentVersion, versionToIncrement)`:
split on `'.'`, require exactly three parts, `parseInt` each, bump per the
increment class (resetting the lower components to the number `0`), and
render `` `${major}.${minor}.${patch}` ``. -/
def incrementVersion (currentVersion : List Char) (versionToIncrement : Inc) :
    Except VerErr (List Char) :=
  match splitDot currentVersion with
  | [v0, v1, v2] =>
    let major := jsParseInt v0
    let minor := jsParseInt v1
    let patch := jsParseInt v2
    let t : JsNum × JsNum × JsNum :=
      match versionToIncrement with
      | .major => (jsAdd major (.int 1), .int 0, .int 0)
      | .minor => (major, jsAdd minor (.int 1), .int 0)
      | .patch => (major, minor, jsAdd patch (.int 1))
    .ok (numToStr t.1 ++ '.' :: numToStr t.2.1 ++ '.' :: numToStr t.2.2)
  | _ => .error .invalidIncrementInput

/-- `util.js` `isMainVersionAhead(mainVersion, branchVersion)`:
componentwise `parseInt`, then the lexicographic (major, minor, patch)
strictly-greater test, written exactly as the source's `if` chain.
(An out-of-range part access yields `undefined`, whose `parseInt` is `NaN`;
`List.getD _ _ []` likewise parses to `NaN`.) -/
def isMainVersionAhead (mainVersion branchVersion : List Char) : Bool :=
  let mainVersionParts := splitDot mainVersion
  let branchVersionParts := splitDot branchVersion
  let mainMajor := jsParseInt (mainVersionParts.getD 0 [])
  let mainMinor := jsParseInt (mainVersionParts.getD 1 [])
  let mainPatch := jsParseInt (mainVersionParts.getD 2 [])
  let branchMajor := jsParseInt (branchVersionParts.getD 0 [])
  let branchMinor := jsParseInt (branchVersionParts.getD 1 [])
  let branchPatch := jsParseInt (branchVersionParts.getD 2 [])
  if jsGt mainMajor branchMajor then true
  else if jsEqNum mainMajor branchMajor && jsGt mainMinor branchMinor then true
  else if jsEqNum mainMajor branchMajor && jsEqNum mainMinor branchMinor
      && jsGt mainPatch branchPatch then true
  else false

/-- `util.js` `isVersionBumpedCorrectly(mainVersion, branchVersion,
versionToIncrement)`: the requested component must have grown by exactly 1
(`branchX - mainX !== 1` returns `false`); the other components are not
inspected. -/
def isVersionBumpedCorrectly (mainVersion branchVersion : List Char)
    (versionToIncrement : Inc) : Bool :=
  let mainVersionParts := splitDot mainVersion
  let branchVersionParts := splitDot branchVersion
  let mainMajor := jsParseInt (mainVersionParts.getD 0 [])
  let mainMinor := jsParseInt (mainVersionParts.getD 1 [])
  let mainPatch := jsParseInt (mainVersionParts.getD 2 [])
  let branchMajor := jsParseInt (branchVersionParts.getD 0 [])
  let branchMinor := jsParseInt (branchVersionParts.getD 1 [])
  let branchPatch := jsParseInt (branchVersionParts.getD 2 [])
  if versionToIncrement = .major ∧ ¬(jsEqNum (jsSub branchMajor mainMajor) (.int 1)) then false
  else if versionToIncrement = .minor ∧ ¬(jsEqNum (jsSub branchMinor mainMinor) (.int 1)) then false
  else if versionToIncrement = .patch ∧ ¬(jsEqNum (jsSub branchPatch mainPatch) (.int 1)) then false
  else true

/-- `util.js` `getNextVersion(mainVersion, currentVersion,
versionToIncrement)`: validate the component count of both sides (main
first), then — when the two strings differ — either re-baseline to the main
version (when main is ahead, or the branch is not bumped correctly) or throw
`VersionAlreadyIncrementedError`.  The source's reassignment
`currentVersion = mainVersion` followed by `incrementVersion(currentVersion)`
is written here as `incrementVersion mainVersion`. -/
def getNextVersion (mainVersion currentVersion : List Char)
    (versionToIncrement : Inc) : Except VerErr (List Char) :=
  if (splitDot mainVersion).length ≠ 3 then .error .invalidMainVersion
  else if (splitDot currentVersion).length ≠ 3 then .error .invalidCurrentVersion
  else if mainVersion ≠ currentVersion then
    if isMainVersionAhead mainVersion currentVersion
        || !(isVersionBumpedCorrectly mainVersion currentVersion versionToIncrement) then
      incrementVersion mainVersion versionToIncrement
    else .error .alreadyIncremented
  else incrementVersion currentVersion versionToIncrement

/-! ## Triple-level specification values -/

/-- A semantic version as a numeric triple (major, minor, patch). -/
abbrev VerTriple := Nat × Nat × Nat

/-- The canonical string rendering `"M.m.p"` of a numeric triple. -/
def verStr (t : VerTriple) : List Char :=
  natToDec t.1 ++ '.' :: natToDec t.2.1 ++ '.' :: natToDec t.2.2

/-- The increment rule on triples: Major `(M+1,0,0)`, Minor `(M,m+1,0)`,
Patch `(M,m,p+1)`. -/
def incTriple : VerTriple → Inc → VerTriple
  | (M, _, _), .major => (M + 1, 0, 0)
  | (M, m, _), .minor => (M, m + 1, 0)
  | (M, m, p), .patch => (M, m, p + 1)

/-- Strict lexicographic (major, minor, patch) order on triples. -/
def lexGt (a b : VerTriple) : Prop :=
  a.1 > b.1 ∨ (a.1 = b.1 ∧ a.2.1 > b.2.1) ∨ (a.1 = b.1 ∧ a.2.1 = b.2.1 ∧ a.2.2 > b.2.2)

instance (a b : VerTriple) : Decidable (lexGt a b) := by
  unfold lexGt; infer_instance

/-- The component of a triple selected by an increment class. -/
def dim (t : VerTriple) : Inc → Nat
  | .major => t.1
  | .minor => t.2.1
  | .patch => t.2.2

/-! ## Rendering / parsing round trip -/

/-- Value of a little-endian digit list. -/
def valLE : List Char → Nat
  | [] => 0
  | c :: cs => digitVal c + 10 * valLE cs

theorem digitVal_digitChar : ∀ r : Nat, r < 10 → digitVal (digitChar r) = r := by decide

theorem digitChar_isDigit : ∀ r : Nat, r < 10 → (digitChar r).isDigit = true := by decide

theorem valLE_natToDecAux : ∀ fuel n : Nat, n ≤ fuel → valLE (natToDecAux fuel n) = n := by
  intro fuel
  induction fuel with
  | zero => intro n hn; interval_cases n; simp [natToDecAux, valLE]
  | succ fuel ih =>
    intro n hn
    by_cases h0 : n = 0
    · simp [natToDecAux, h0, valLE]
    · have hdiv : n / 10 < n := Nat.div_lt_self (Nat.pos_of_ne_zero h0) (by norm_num)
      have hle : n / 10 ≤ fuel := by omega
      simp only [natToDecAux, h0, if_false, valLE, ih _ hle,
        digitVal_digitChar (n % 10) (Nat.mod_lt _ (by norm_num))]
      omega

theorem natToDecAux_digits :
    ∀ fuel n : Nat, ∀ c ∈ natToDecAux fuel n, c.isDigit = true := by
  intro fuel
  induction fuel with
  | zero => intro n c hc; simp [natToDecAux] at hc
  | succ fuel ih =>
    intro n c hc
    by_cases h0 : n = 0
    · simp [natToDecAux, h0] at hc
    · simp only [natToDecAux, h0, if_false, List.mem_cons] at hc
      rcases hc with hc | hc
      · subst hc; exact digitChar_isDigit _ (Nat.mod_lt _ (by norm_num))
      · exact ih _ _ hc

theorem natToDec_digits (n : Nat) : ∀ c ∈ natToDec n, c.isDigit = true := by
  intro c hc
  unfold natToDec at hc
  by_cases h0 : n = 0
  · simp [h0] at hc; subst hc; decide
  · simp only [h0, if_false, List.mem_reverse] at hc
    exact natToDecAux_digits _ _ _ hc

theorem natToDec_ne_nil (n : Nat) : natToDec n ≠ [] := by
  unfold natToDec
  by_cases h0 : n = 0
  · simp [h0]
  · simp only [h0, if_false, ne_eq, List.reverse_eq_nil_iff]
    obtain ⟨m, rfl⟩ := Nat.exists_eq_succ_of_ne_zero h0
    simp [natToDecAux]

theorem digitsToNat_append_singleton (l : List Char) (c : Char) :
    digitsToNat (l ++ [c]) = 10 * digitsToNat l + digitVal c := by
  simp [digitsToNat, List.foldl_append]

theorem digitsToNat_reverse (l : List Char) : digitsToNat l.reverse = valLE l := by
  induction l with
  | nil => rfl
  | cons c cs ih =>
    simp only [List.reverse_cons, digitsToNat_append_singleton, ih, valLE]
    omega

theorem digitsToNat_natToDec (n : Nat) : digitsToNat (natToDec n) = n := by
  unfold natToDec
  by_cases h0 : n = 0
  · simp [h0]; decide
  · simp only [h0, if_false, digitsToNat_reverse]
    exact valLE_natToDecAux _ _ (Nat.le_succ n)

theorem natToDec_injective {a b : Nat} (h : natToDec a = natToDec b) : a = b := by
  have := digitsToNat_natToDec a
  rw [h, digitsToNat_natToDec] at this
  omega

theorem isJsSpace_of_isDigit {c : Char} (h : c.isDigit = true) : isJsSpace c = false := by
  by_contra hs
  rw [Bool.not_eq_false, isJsSpace] at hs
  simp only [Bool.or_eq_true, decide_eq_true_eq] at hs
  rcases hs with ((rfl | rfl) | rfl) | rfl <;> simp at h

theorem ne_dash_of_isDigit {c : Char} (h : c.isDigit = true) : c ≠ '-' := by
  rintro rfl; simp at h

theorem ne_plus_of_isDigit {c : Char} (h : c.isDigit = true) : c ≠ '+' := by
  rintro rfl; simp at h

theorem jsParseInt_digits (l : List Char) (hne : l ≠ [])
    (hd : ∀ c ∈ l, c.isDigit = true) : jsParseInt l = .int (digitsToNat l) := by
  obtain ⟨c, cs, rfl⟩ := List.exists_cons_of_ne_nil hne
  have hc : c.isDigit = true := hd c (List.mem_cons_self c cs)
  have hspace : isJsSpace c = false := isJsSpace_of_isDigit hc
  have hdash : c ≠ '-' := ne_dash_of_isDigit hc
  have hplus : c ≠ '+' := ne_plus_of_isDigit hc
  have htake : (c :: cs).takeWhile Char.isDigit = c :: cs :=
    List.takeWhile_eq_self_iff.mpr hd
  unfold jsParseInt
  simp only [List.dropWhile_cons, hspace, if_false, List.head?_cons, Option.some.injEq,
    hdash, hplus, or_self, if_false, htake, decide_eq_true_eq, false_or]
  simp [hdash, hplus, hc, htake]

theorem jsParseInt_natToDec (n : Nat) : jsParseInt (natToDec n) = .int n := by
  rw [jsParseInt_digits _ (natToDec_ne_nil n) (natToDec_digits n), digitsToNat_natToDec]

/-! ## `split('.')` on rendered versions -/

theorem splitDot_ne_nil (l : List Char) : splitDot l ≠ [] := by
  induction l with
  | nil => simp [splitDot]
  | cons c cs ih =>
    unfold splitDot
    by_cases h : c = '.'
    · simp [h]
    · simp only [h, if_false]
      cases hcs : splitDot cs with
      | nil => simp
      | cons hh tt => simp

theorem splitDot_no_dot {a : List Char} (h : ∀ c ∈ a, c ≠ '.') : splitDot a = [a] := by
  induction a with
  | nil => rfl
  | cons c cs ih =>
    have hc : c ≠ '.' := h c (List.mem_cons_self c cs)
    have hcs := ih (fun x hx => h x (List.mem_cons_of_mem c hx))
    unfold splitDot
    simp [hc, hcs]

theorem splitDot_append_dot {a : List Char} (rest : List Char)
    (h : ∀ c ∈ a, c ≠ '.') : splitDot (a ++ '.' :: rest) = a :: splitDot rest := by
  induction a with
  | nil =>
    simp only [List.nil_append]
    conv_lhs => rw [splitDot]
    simp
  | cons c cs ih =>
    have hc : c ≠ '.' := h c (List.mem_cons_self c cs)
    have hcs := ih (fun x hx => h x (List.mem_cons_of_mem c hx))
    simp only [List.cons_append]
    conv_lhs => rw [splitDot]
    rw [if_neg hc, hcs]

theorem natToDec_no_dot (n : Nat) : ∀ c ∈ natToDec n, c ≠ '.' := by
  intro c hc
  have := natToDec_digits n c hc
  rintro rfl; simp at this

theorem splitDot_verStr (t : VerTriple) :
    splitDot (verStr t) = [natToDec t.1, natToDec t.2.1, natToDec t.2.2] := by
  unfold verStr
  simp only [List.append_assoc, List.cons_append]
  rw [splitDot_append_dot _ (natToDec_no_dot _), splitDot_append_dot _ (natToDec_no_dot _),
    splitDot_no_dot (natToDec_no_dot _)]

theorem verStr_injective {a b : VerTriple} (h : verStr a = verStr b) : a = b := by
  have hs : splitDot (verStr a) = splitDot (verStr b) := by rw [h]
  rw [splitDot_verStr, splitDot_verStr] at hs
  simp only [List.cons.injEq, and_true] at hs
  obtain ⟨h1, h2, h3⟩ := hs
  obtain ⟨a1, a2, a3⟩ := a
  obtain ⟨b1, b2, b3⟩ := b
  simp only [Prod.mk.injEq]
  exact ⟨natToDec_injective h1, natToDec_injective h2, natToDec_injective h3⟩

/-! ## The resolver on rendered triples -/

theorem isMainVersionAhead_verStr (a b : VerTriple) :
    isMainVersionAhead (verStr a) (verStr b) = decide (lexGt a b) := by
  unfold isMainVersionAhead
  rw [splitDot_verStr a, splitDot_verStr b]
  simp only [List.getD_cons_zero, List.getD_cons_succ, jsParseInt_natToDec]
  simp only [jsGt, jsEqNum, lexGt]
  by_cases h1 : a.1 > b.1 <;> by_cases h2 : a.1 = b.1 <;>
    by_cases h3 : a.2.1 > b.2.1 <;> by_cases h4 : a.2.1 = b.2.1 <;>
    by_cases h5 : a.2.2 > b.2.2 <;>
    simp_all

theorem isVersionBumpedCorrectly_verStr (a b : VerTriple) (inc : Inc) :
    isVersionBumpedCorrectly (verStr a) (verStr b) inc =
      decide (dim b inc = dim a inc + 1) := by
  unfold isVersionBumpedCorrectly
  rw [splitDot_verStr a, splitDot_verStr b]
  simp only [List.getD_cons_zero, List.getD_cons_succ, jsParseInt_natToDec]
  cases inc <;> simp [jsSub, jsEqNum, dim] <;> omega

theorem numToStr_natCast (n : Nat) : numToStr (.int (n : Int)) = natToDec n := by
  have h : ¬((n : Int) < 0) := Int.not_lt.mpr (Int.ofNat_nonneg n)
  simp [numToStr, intToDec, h, Int.toNat_ofNat]

theorem jsAdd_natCast_one (n : Nat) :
    jsAdd (.int (n : Int)) (.int 1) = .int ((n + 1 : Nat) : Int) := by
  simp only [jsAdd, JsNum.int.injEq]
  push_cast
  ring

theorem incrementVersion_verStr (a : VerTriple) (inc : Inc) :
    incrementVersion (verStr a) inc = .ok (verStr (incTriple a inc)) := by
  obtain ⟨M, m, p⟩ := a
  unfold incrementVersion
  rw [splitDot_verStr]
  cases inc <;>
    simp only [jsParseInt_natToDec, jsAdd_natCast_one, numToStr_natCast, incTriple] <;>
    rfl

/-- Master characterization of `getNextVersion` on canonically rendered
numeric triples: it throws `VersionAlreadyIncrementedError` exactly when the
two versions differ, main is not lexicographically ahead, and the requested
component grew by exactly one; in every other case it increments the main
triple. -/
theorem getNextVersion_verStr (a b : VerTriple) (inc : Inc) :
    getNextVersion (verStr a) (verStr b) inc =
      if a ≠ b ∧ ¬lexGt a b ∧ dim b inc = dim a inc + 1 then .error .alreadyIncremented
      else .ok (verStr (incTriple a inc)) := by
  unfold getNextVersion
  rw [splitDot_verStr a, splitDot_verStr b, isMainVersionAhead_verStr,
    isVersionBumpedCorrectly_verStr]
  simp only [List.length_cons, List.length_nil]
  by_cases heq : a = b
  · subst heq
    simp [incrementVersion_verStr]
  · have hne : verStr a ≠ verStr b := fun h => heq (verStr_injective h)
    by_cases hlex : lexGt a b <;> by_cases hdim : dim b inc = dim a inc + 1 <;>
      simp [hne, heq, hlex, hdim, incrementVersion_verStr]

/-! ## Helper shapes for the resolver -/

theorem incrementVersion_ok_of_three {cv : List Char} (h : (splitDot cv).length = 3)
    (inc : Inc) : ∃ s, incrementVersion cv inc = .ok s := by
  obtain ⟨a, b, c, hs⟩ := List.length_eq_three.mp h
  unfold incrementVersion
  rw [hs]
  exact ⟨_, rfl⟩

theorem getNextVersion_ok_or_already {mv cv : List Char}
    (hm : (splitDot mv).length = 3) (hc : (splitDot cv).length = 3) (inc : Inc) :
    (∃ s, getNextVersion mv cv inc = .ok s) ∨
      getNextVersion mv cv inc = .error .alreadyIncremented := by
  unfold getNextVersion
  rw [if_neg (by simp [hm]), if_neg (by simp [hc])]
  by_cases hne : mv ≠ cv
  · rw [if_pos hne]
    cases hb : (isMainVersionAhead mv cv || !isVersionBumpedCorrectly mv cv inc)
    · exact Or.inr (by simp)
    · exact Or.inl (by simpa using incrementVersion_ok_of_three hm inc)
  · rw [if_neg hne]
    exact Or.inl (incrementVersion_ok_of_three hc inc)

/-! ## Claims about the version resolver (`util.js`) -/

/-- C1: for every valid three-part version `t` and increment class `inc`,
calling `getNextVersion` with trunk `t` and branch `increment(t, inc)` (the
branch already reflects the requested bump) throws
`VersionAlreadyIncrementedError` and produces no new version, so a re-run
never bumps again. -/
theorem getNextVersion_already_incremented (t : VerTriple) (inc : Inc) :
    getNextVersion (verStr t) (verStr (incTriple t inc)) inc =
      .error .alreadyIncremented := by
  rw [getNextVersion_verStr]
  rw [if_pos]
  obtain ⟨M, m, p⟩ := t
  refine ⟨?_, ?_, ?_⟩
  · cases inc <;> simp [incTriple]
  · cases inc <;> simp [incTriple, lexGt]
  · cases inc <;> simp [incTriple, dim]

/-- C2: whenever trunk and branch differ and either trunk is
lexicographically greater than branch or the branch's requested component is
not exactly one ahead of trunk's (the source's `isVersionBumpedCorrectly`
test, which is also the spec's definition of "exactly one increment step
ahead in the requested dimension"), `getNextVersion` discards the branch
version and returns `increment(trunk, inc)`. -/
theorem getNextVersion_rebaseline (a b : VerTriple) (inc : Inc)
    (_hne : a ≠ b) (h : lexGt a b ∨ dim b inc ≠ dim a inc + 1) :
    getNextVersion (verStr a) (verStr b) inc = .ok (verStr (incTriple a inc)) := by
  rw [getNextVersion_verStr, if_neg]
  rintro ⟨-, hnl, hd⟩
  rcases h with hl | hdim
  · exact hnl hl
  · exact hdim hd

/-- Witness for C2 at the spec's own scenario: trunk `2.0.0`, branch
`1.2.3`, Patch increment resolves to `2.0.1`. -/
theorem getNextVersion_rebaseline_witness :
    getNextVersion (verStr (2, 0, 0)) (verStr (1, 2, 3)) .patch =
      .ok (verStr (2, 0, 1)) :=
  getNextVersion_rebaseline (2, 0, 0) (1, 2, 3) .patch (by decide) (Or.inl (by decide))

/-- C3: equal trunk and branch versions never throw
`VersionAlreadyIncrementedError`; the increment rule is applied to the
version: Major `(M+1,0,0)`, Minor `(M,m+1,0)`, Patch `(M,m,p+1)`. -/
theorem getNextVersion_equal_increments (t : VerTriple) (inc : Inc) :
    getNextVersion (verStr t) (verStr t) inc = .ok (verStr (incTriple t inc)) := by
  rw [getNextVersion_verStr]
  simp

/-- Counterexample to C4: a version whose three components are non-numeric
is NOT rejected with `InvalidVersionError`; `getNextVersion` succeeds and
returns the string `"NaN.NaN.NaN"` (JavaScript `parseInt` gives `NaN`, which
propagates through the arithmetic and the template literal). -/
theorem getNextVersion_nonNumeric_counterexample :
    getNextVersion (chars "x.y.z") (chars "x.y.z") .patch = .ok (chars "NaN.NaN.NaN") ∧
    getNextVersion (chars "x.y.z") (chars "x.y.z") .patch ≠ .error .invalidMainVersion ∧
    getNextVersion (chars "x.y.z") (chars "x.y.z") .patch ≠ .error .invalidCurrentVersion ∧
    getNextVersion (chars "x.y.z") (chars "x.y.z") .patch ≠ .error .invalidIncrementInput :=
  ⟨by decide, by decide, by decide, by decide⟩

/-- C4 (amended): `getNextVersion` fails with `InvalidVersionError` exactly
when a side does not have three dot-separated components, naming the side
and checking trunk (main) first; non-numeric components are not rejected. -/
theorem getNextVersion_invalid_component_count (mv cv : List Char) (inc : Inc) :
    (getNextVersion mv cv inc = .error .invalidMainVersion ↔
      (splitDot mv).length ≠ 3) ∧
    (getNextVersion mv cv inc = .error .invalidCurrentVersion ↔
      ((splitDot mv).length = 3 ∧ (splitDot cv).length ≠ 3)) := by
  by_cases hm : (splitDot mv).length = 3
  · by_cases hc : (splitDot cv).length = 3
    · rcases getNextVersion_ok_or_already hm hc inc with ⟨s, hs⟩ | hs <;>
        rw [hs] <;> simp [hm, hc]
    · have hval : getNextVersion mv cv inc = .error .invalidCurrentVersion := by
        unfold getNextVersion
        rw [if_neg (by simp [hm]), if_pos hc]
      rw [hval]
      simp [hm, hc]
  · have hval : getNextVersion mv cv inc = .error .invalidMainVersion := by
      unfold getNextVersion
      rw [if_pos hm]
    rw [hval]
    simp [hm]

/-- Witness for the amended C4 at the spec's scenario: trunk `"1.2"`,
branch `"1.2.0"` fails naming the trunk (main) side. -/
theorem getNextVersion_invalid_component_count_witness :
    getNextVersion (chars "1.2") (chars "1.2.0") .patch = .error .invalidMainVersion :=
  (getNextVersion_invalid_component_count (chars "1.2") (chars "1.2.0") .patch).1.mpr
    (by decide)

/-! ## Claims about the label scan (`util.js` `getVersionToIncrement`) -/

/-- Which increment class a single label name denotes, if any. -/
def recognize (name : List Char) : Option Inc :=
  if name = chars "version:major" then some .major
  else if name = chars "version:minor" then some .minor
  else none

/-- Specification-side characterization for the amended C7: the recognized
label that occurs LAST in the list, if any. -/
def lastRecognized : List (List Char) → Option Inc
  | [] => none
  | name :: rest =>
    match lastRecognized rest with
    | some i => some i
    | none => recognize name

theorem getVersionToIncrement_foldl_eq :
    ∀ (labels : List (List Char)) (i : Inc),
      labels.foldl
        (fun versionToIncrement name =>
          if name = chars "version:major" then .major
          else if name = chars "version:minor" then .minor
          else versionToIncrement) i =
      (lastRecognized labels).getD i := by
  intro labels
  induction labels with
  | nil => intro i; rfl
  | cons name rest ih =>
    intro i
    simp only [List.foldl_cons, ih]
    by_cases h1 : name = chars "version:major"
    · cases hrest : lastRecognized rest <;>
        simp [lastRecognized, hrest, recognize, h1]
    · by_cases h2 : name = chars "version:minor" <;>
        cases hrest : lastRecognized rest <;>
        simp [lastRecognized, hrest, recognize, h1, h2,
          show chars "version:minor" ≠ chars "version:major" from by decide]

/-- Counterexample to C7: with labels `['version:major', 'version:minor']`
the result is `'minor'`, not `'major'` — the scan lets the LAST recognized
label win, so Major does not take precedence regardless of order. -/
theorem getVersionToIncrement_counterexample :
    getVersionToIncrement [chars "version:major", chars "version:minor"] = .minor ∧
    getVersionToIncrement [chars "version:major", chars "version:minor"] ≠ .major :=
  ⟨by decide, by decide⟩

/-- C7 (amended): `getVersionToIncrement` returns `'patch'` when no
recognized label is present; otherwise the LAST recognized label in list
order decides (`'version:major'` ↦ major, `'version:minor'` ↦ minor). -/
theorem getVersionToIncrement_last_recognized (labels : List (List Char)) :
    getVersionToIncrement labels = (lastRecognized labels).getD .patch :=
  getVersionToIncrement_foldl_eq labels .patch

example : getVersionToIncrement [chars "version:major"] = .major := by decide
example : getVersionToIncrement [chars "bug"] = .patch := by decide

/-! ## `handler.js`: the version patterns

`pomRegex = '<version>([0-9.]+)</version>'` and
`gradleRegex = 'version=([0-9.]+)'`, both used via `String.prototype.match`
with a non-global pattern: the leftmost match, with one capture group.
Since `</version>` begins with `<`, which is not in the class `[0-9.]`,
backtracking can never shorten the greedy run: a position matches exactly
when the literal is followed by a maximal nonempty `[0-9.]` run followed by
the closing literal. -/

/-- The character class `[0-9.]` of both version patterns. -/
def isVerChar (c : Char) : Bool := c.isDigit || c = '.'

/-- Strip the literal `lit` from the front of `t` (regex literal matching). -/
def stripLit : List Char → List Char → Option (List Char)
  | [], t => some t
  | _ :: _, [] => none
  | a :: as, c :: cs => if c = a then stripLit as cs else none

/-- The literal `<version>` of `pomRegex`. -/
def pomOpen : List Char := ['<', 'v', 'e', 'r', 's', 'i', 'o', 'n', '>']

/-- The literal `</version>` of `pomRegex`. -/
def pomClose : List Char := ['<', '/', 'v', 'e', 'r', 's', 'i', 'o', 'n', '>']

/-- The literal `version=` of `gradleRegex`. -/
def gradleKey : List Char := ['v', 'e', 'r', 's', 'i', 'o', 'n', '=']

example : pomOpen = chars "<version>" := by decide
example : pomClose = chars "</version>" := by decide
example : gradleKey = chars "version=" := by decide

/-- Match `pomRegex` at the head of `t`: literal `<version>`, a maximal
nonempty `[0-9.]` run, literal `</version>`. Returns the capture group and
the text after the match. -/
def tryPomAt (t : List Char) : Option (List Char × List Char) :=
  match stripLit pomOpen t with
  | none => none
  | some rest =>
    if rest.takeWhile isVerChar = [] then none
    else
      match stripLit pomClose (rest.dropWhile isVerChar) with
      | none => none
      | some r => some (rest.takeWhile isVerChar, r)

/-- Leftmost `pomRegex` match: the text before the match, the capture group,
and the text after the match; `none` when `content.match(pomRegex)` is
`null`. -/
def findPom : List Char → Option (List Char × List Char × List Char)
  | [] => none
  | c :: cs =>
    match tryPomAt (c :: cs) with
    | some (v, r) => some ([], v, r)
    | none =>
      match findPom cs with
      | some (p, v, r) => some (c :: p, v, r)
      | none => none

/-- The capture group `matches[1]` of the first `pomRegex` match. -/
def pomMatch (content : List Char) : Option (List Char) :=
  (findPom content).map (fun x => x.2.1)

/-- Match `gradleRegex` at the head of `t`: literal `version=` then a
maximal nonempty `[0-9.]` run (no closing literal). -/
def tryGradleAt (t : List Char) : Option (List Char × List Char) :=
  match stripLit gradleKey t with
  | none => none
  | some rest =>
    let run := rest.takeWhile isVerChar
    if run = [] then none else some (run, rest.dropWhile isVerChar)

/-- Leftmost `gradleRegex` match. -/
def findGradle : List Char → Option (List Char × List Char × List Char)
  | [] => none
  | c :: cs =>
    match tryGradleAt (c :: cs) with
    | some (v, r) => some ([], v, r)
    | none =>
      match findGradle cs with
      | some (p, v, r) => some (c :: p, v, r)
      | none => none

/-- The capture group `matches[1]` of the first `gradleRegex` match. -/
def gradleMatch (content : List Char) : Option (List Char) :=
  (findGradle content).map (fun x => x.2.1)

/-- JavaScript `content.replace(needle, repl)` with string arguments:
replace the first occurrence of `needle`, if any.  (The replacement strings
used by the handlers are version strings and contain no `$` patterns.) -/
def replaceFirst (needle repl : List Char) : List Char → List Char
  | [] =>
    match stripLit needle [] with
    | some r => repl ++ r
    | none => []
  | c :: cs =>
    match stripLit needle (c :: cs) with
    | some r => repl ++ r
    | none => c :: replaceFirst needle repl cs

/-- A `<version>v</version>` element, the needle/replacement of
`handlePOM`'s substitution. -/
def pomTag (v : List Char) : List Char := pomOpen ++ v ++ pomClose

/-- `handlePOM`'s substitution:
`content.replace(`<version>OLD</version>`, `<version>NEW</version>`)`. -/
def pomSubst (content oldV newV : List Char) : List Char :=
  replaceFirst (pomTag oldV) (pomTag newV) content

/-! ## `handler.js`: extraction outcomes -/

/-- How an extraction attempt in `handler.js` terminates when it does not
produce a version string:
* `typeError` — `content.match(...)` returned `null` and the guard
  `matches.length !== 2` crashes reading `.length` of `null` (an untyped
  `TypeError`, not one of the handler's own error classes);
* `versionNotFound` — `throw new VersionNotFoundError(...)` (the guard can
  only fire when `matches.length !== 2`, but a successful non-global match
  with one capture group always has length 2, so this is unreachable). -/
inductive ExtractErr where
  | typeError
  | versionNotFound
deriving DecidableEq

/-- The extraction phase of `handlePOM(path, content)`: match the branch
content, then the trunk (main branch) content, both against `pomRegex`;
returns `(mainVersion, currentVersion)` as passed to `getNextVersion`. -/
def handlePOMExtract (content mainContent : List Char) :
    Except ExtractErr (List Char × List Char) :=
  match pomMatch content with
  | none => .error .typeError
  | some currentVersion =>
    match pomMatch mainContent with
    | none => .error .typeError
    | some mainVersion => .ok (mainVersion, currentVersion)

/-- The extraction phase of `handleGradle(path, content)`: the branch
content is matched with `gradleRegex`, but the trunk content is matched with
`pomRegex` — exactly as in the source (`handler.js` line 128,
`mainContent.match(pomRegex)`). -/
def handleGradleExtract (content mainContent : List Char) :
    Except ExtractErr (List Char × List Char) :=
  match gradleMatch content with
  | none => .error .typeError
  | some currentVersion =>
    match pomMatch mainContent with
    | none => .error .typeError
    | some mainVersion => .ok (mainVersion, currentVersion)

/-- A parsed package manifest as far as `handlePackageJSON` inspects it:
the optional top-level `version` field (`undefined` when absent). -/
structure PkgJson where
  version : Option (List Char)

/-- The extraction phase of `handlePackageJSON`: read `json.version` on both
sides and hand them to `getNextVersion`, which calls `.split` on them —
`mainVersion.split` first.  An absent field is `undefined`, and
`undefined.split('.')` throws an untyped `TypeError`. -/
def handlePackageJSONExtract (json mainJson : PkgJson) :
    Except ExtractErr (List Char × List Char) :=
  match mainJson.version, json.version with
  | none, _ => .error .typeError
  | some _, none => .error .typeError
  | some mv, some cv => .ok (mv, cv)

/-! ## `handler.js`: the `Handler.handle` dispatch -/

/-- The file formats `Handler.handle` recognizes by extension, plus
`other` for any unrecognized extension. -/
inductive FileExt where
  | json
  | xml
  | gradle
  | other
deriving DecidableEq

/-- The exception classes `Handler.handle`'s catch block distinguishes,
plus `unclassified` for anything else (which it re-throws). -/
inductive HandlerErr where
  | invalidVersion
  | versionNotFound
  | alreadyIncremented
  | mainFileMissing
  | unclassified
deriving DecidableEq

/-- A diagnostic emitted through `@actions/core`. -/
inductive Diag where
  | failedDiag
  | infoDiag
  | warnDiag
deriving DecidableEq

/-- The observable effects of one `Handler.handle(path, branch)` call:
diagnostics, the content passed to `fs.writeFileSync` (if called), and the
content passed to `client.commitFile` (if called). -/
structure HandleEffects where
  diags : List Diag
  written : Option (List Char)
  committed : Option (List Char)
deriving DecidableEq

/-- `Handler.handle(path, branch)`: fail if the file does not exist locally;
otherwise dispatch on the lowercased extension — the three known formats run
their handler (abstracted as `fmt`), any other extension only warns and
leaves `content` as the text read from disk.  Classified exceptions turn
into diagnostics; unclassified ones propagate (`.error ()`).  Finally
`if (content)` — truthy exactly when the string is nonempty — writes the
file and commits it. -/
def handle (ext : FileExt) (fileExists : Bool) (content : List Char)
    (fmt : FileExt → List Char → Except HandlerErr (List Char)) :
    Except Unit HandleEffects :=
  if fileExists = false then .ok ⟨[.failedDiag], none, none⟩
  else
    let step : Except HandlerErr (List Char × List Diag) :=
      match ext with
      | .json => (fmt .json content).map (fun c => (c, []))
      | .xml => (fmt .xml content).map (fun c => (c, []))
      | .gradle => (fmt .gradle content).map (fun c => (c, []))
      | .other => .ok (content, [.warnDiag])
    match step with
    | .error .invalidVersion => .ok ⟨[.failedDiag], none, none⟩
    | .error .versionNotFound => .ok ⟨[.failedDiag], none, none⟩
    | .error .alreadyIncremented => .ok ⟨[.infoDiag], none, none⟩
    | .error .mainFileMissing => .ok ⟨[.warnDiag], none, none⟩
    | .error .unclassified => .error ()
    | .ok (c, ds) => if c = [] then .ok ⟨ds, none, none⟩ else .ok ⟨ds, some c, some c⟩

/-! ## Claims about the handlers (`handler.js`) -/

/-- C5 fails on the code: for the Gradle format the trunk side is matched
with the POM pattern, not the Gradle pattern.  On the repository's own test
input (`handler.test.js` feeds main content `version=0.0.0` and expects
success), `pomRegex` finds no match on the trunk content, `match` returns
`null`, and the code crashes with a TypeError — although the Gradle pattern
itself does match that content, which is what the branch side uses. -/
theorem handleGradle_trunk_pom_regex_crash :
    handleGradleExtract (chars "version=0.0.0") (chars "version=0.0.0") =
      .error .typeError ∧
    gradleMatch (chars "version=0.0.0") = some (chars "0.0.0") ∧
    pomMatch (chars "version=0.0.0") = none :=
  ⟨by decide, by decide, by decide⟩

/-- C6 fails on the code: when the version token is absent, the POM handler
does not throw `VersionNotFoundError` (the spec's `VersionFieldMissing`):
`content.match(pomRegex)` returns `null` and `matches.length` crashes with
an unclassified TypeError; likewise `handlePackageJSON` on a manifest
without a `version` field passes `undefined` into `getNextVersion`, where
`undefined.split('.')` crashes with a TypeError. -/
theorem missing_version_token_crashes_unclassified :
    handlePOMExtract (chars "<project></project>")
        (chars "<project><version>0.0.0</version></project>") = .error .typeError ∧
    handlePackageJSONExtract ⟨none⟩ ⟨some (chars "0.0.0")⟩ = .error .typeError ∧
    (ExtractErr.typeError ≠ ExtractErr.versionNotFound) :=
  ⟨by decide, by decide, by decide⟩

/-- C8 fails on the code: for a file with an unrecognized extension that
exists and has nonempty content, `Handler.handle` does emit only the
warning diagnostic and leaves the content unchanged, but then — because
`if (content)` is truthy for the nonempty file text — it still writes the
file back AND commits the unchanged content to the branch, for any format
handler `fmt` (which is never consulted). -/
theorem handle_unsupported_still_commits
    (fmt : FileExt → List Char → Except HandlerErr (List Char)) :
    handle .other true (chars "plain text") fmt =
      .ok ⟨[.warnDiag], some (chars "plain text"), some (chars "plain text")⟩ := by
  rfl

/-! ## Round-trip for the POM rewriter (C9)

Key structural facts about the POM pattern, leading to: substituting the
first matched `<version>OLD</version>` element and re-extracting recovers
the new version exactly. -/

theorem stripLit_append (lit x : List Char) : stripLit lit (lit ++ x) = some x := by
  induction lit with
  | nil => rfl
  | cons a as ih => simp [stripLit, ih]

theorem stripLit_eq_some :
    ∀ {lit t r : List Char}, stripLit lit t = some r → t = lit ++ r := by
  intro lit
  induction lit with
  | nil =>
    intro t r h
    simp only [stripLit, Option.some.injEq] at h
    rw [h, List.nil_append]
  | cons a as ih =>
    intro t r h
    cases t with
    | nil => simp [stripLit] at h
    | cons c cs =>
      unfold stripLit at h
      by_cases hc : c = a
      · rw [if_pos hc] at h
        rw [hc, List.cons_append, ← ih h]
      · rw [if_neg hc] at h
        exact absurd h (by simp)

theorem mem_takeWhile_pred {p : Char → Bool} :
    ∀ {l : List Char} {c : Char}, c ∈ l.takeWhile p → p c = true := by
  intro l
  induction l with
  | nil => intro c hc; simp [List.takeWhile] at hc
  | cons a as ih =>
    intro c hc
    rw [List.takeWhile_cons] at hc
    by_cases hp : p a = true
    · rw [if_pos hp] at hc
      rcases List.mem_cons.mp hc with rfl | hc2
      · exact hp
      · exact ih hc2
    · rw [if_neg (by simpa using hp)] at hc
      simp at hc

theorem takeWhile_append_stop {p : Char → Bool} :
    ∀ (v w : List Char), (∀ c ∈ v, p c = true) →
      (∀ d ds, w = d :: ds → p d = false) →
      (v ++ w).takeWhile p = v ∧ (v ++ w).dropWhile p = w := by
  intro v
  induction v with
  | nil =>
    intro w _ hw
    cases w with
    | nil => simp
    | cons d ds =>
      have hd := hw d ds rfl
      simp [List.takeWhile_cons, List.dropWhile_cons, hd]
  | cons a v ih =>
    intro w hv hw
    have ha : p a = true := hv a (List.mem_cons_self a v)
    have hrec := ih w (fun c hc => hv c (List.mem_cons_of_mem a hc)) hw
    simp [List.cons_append, List.takeWhile_cons, List.dropWhile_cons, ha, hrec.1, hrec.2]

theorem pomClose_append_head (r : List Char) :
    ∀ d ds, pomClose ++ r = d :: ds → isVerChar d = false := by
  intro d ds h
  have h2 : ('<' :: (['/', 'v', 'e', 'r', 's', 'i', 'o', 'n', '>'] ++ r)) = d :: ds := h
  obtain ⟨rfl, -⟩ := List.cons.inj h2
  decide

theorem tryPomAt_open_some {t rest : List Char} (h : stripLit pomOpen t = some rest) :
    tryPomAt t =
      if rest.takeWhile isVerChar = [] then none
      else
        match stripLit pomClose (rest.dropWhile isVerChar) with
        | none => none
        | some r => some (rest.takeWhile isVerChar, r) := by
  unfold tryPomAt
  rw [h]

theorem tryPomAt_tag {v : List Char} (r : List Char) (hne : v ≠ [])
    (hv : ∀ c ∈ v, isVerChar c = true) : tryPomAt (pomTag v ++ r) = some (v, r) := by
  have hsplit := takeWhile_append_stop (p := isVerChar) v (pomClose ++ r) hv
    (pomClose_append_head r)
  have h1 : pomTag v ++ r = pomOpen ++ (v ++ (pomClose ++ r)) := by
    simp [pomTag, List.append_assoc]
  rw [h1]
  rw [tryPomAt_open_some (stripLit_append pomOpen _), hsplit.1, hsplit.2,
    if_neg hne, stripLit_append]

theorem tryPomAt_some {t v r : List Char} (h : tryPomAt t = some (v, r)) :
    t = pomTag v ++ r ∧ v ≠ [] ∧ ∀ c ∈ v, isVerChar c = true := by
  cases hs : stripLit pomOpen t with
  | none => unfold tryPomAt at h; rw [hs] at h; exact absurd h (by simp)
  | some rest =>
    rw [tryPomAt_open_some hs] at h
    by_cases hrun : rest.takeWhile isVerChar = []
    · rw [if_pos hrun] at h; exact absurd h (by simp)
    · rw [if_neg hrun] at h
      cases hc : stripLit pomClose (rest.dropWhile isVerChar) with
      | none => rw [hc] at h; exact absurd h (by simp)
      | some r2 =>
        rw [hc] at h
        simp only [Option.some.injEq, Prod.mk.injEq] at h
        obtain ⟨rfl, rfl⟩ := h
        have ht : t = pomOpen ++ rest := stripLit_eq_some hs
        have hrest : rest = rest.takeWhile isVerChar ++ (pomClose ++ r2) := by
          conv_lhs => rw [← List.takeWhile_append_dropWhile (p := isVerChar) (l := rest)]
          rw [stripLit_eq_some hc]
        refine ⟨?_, hrun, fun c hc2 => mem_takeWhile_pred hc2⟩
        conv_lhs => rw [ht, hrest]
        simp [pomTag, List.append_assoc]

theorem findPom_some :
    ∀ {s p v r : List Char}, findPom s = some (p, v, r) →
      s = p ++ (pomTag v ++ r) ∧ v ≠ [] ∧ (∀ c ∈ v, isVerChar c = true) ∧
      ∀ q < p.length, tryPomAt (s.drop q) = none := by
  intro s
  induction s with
  | nil => intro p v r h; simp [findPom] at h
  | cons c cs ih =>
    intro p v r h
    unfold findPom at h
    cases htry : tryPomAt (c :: cs) with
    | some w =>
      obtain ⟨v1, r1⟩ := w
      rw [htry] at h
      simp only [Option.some.injEq, Prod.mk.injEq] at h
      obtain ⟨rfl, rfl, rfl⟩ := h
      obtain ⟨he, hv, hvc⟩ := tryPomAt_some htry
      exact ⟨by rw [List.nil_append, ← he], hv, hvc, fun q hq => absurd hq (by simp)⟩
    | none =>
      rw [htry] at h
      cases hf : findPom cs with
      | none => rw [hf] at h; exact absurd h (by simp)
      | some w =>
        obtain ⟨p1, v1, r1⟩ := w
        rw [hf] at h
        simp only [Option.some.injEq, Prod.mk.injEq] at h
        obtain ⟨rfl, rfl, rfl⟩ := h
        obtain ⟨hcs, hv, hvc, hpos⟩ := ih hf
        refine ⟨by rw [List.cons_append, ← hcs], hv, hvc, ?_⟩
        intro q hq
        cases q with
        | zero => simpa using htry
        | succ q' =>
          rw [List.drop_succ_cons]
          exact hpos q' (by simpa using Nat.lt_of_succ_lt_succ (by simpa using hq))

theorem findPom_of_first :
    ∀ (p : List Char) {tail v r : List Char},
      (∀ q < p.length, tryPomAt ((p ++ tail).drop q) = none) →
      tryPomAt tail = some (v, r) →
      findPom (p ++ tail) = some (p, v, r) := by
  intro p
  induction p with
  | nil =>
    intro tail v r _ htail
    cases tail with
    | nil => simp [tryPomAt, stripLit, pomOpen] at htail
    | cons c cs =>
      rw [List.nil_append]
      unfold findPom
      rw [htail]
  | cons c p' ih =>
    intro tail v r hq htail
    have h0 : tryPomAt (c :: (p' ++ tail)) = none := by
      simpa using hq 0 (by simp)
    rw [List.cons_append]
    unfold findPom
    rw [h0, ih (fun q hql => by simpa using hq (q + 1) (by simpa using Nat.succ_lt_succ hql))
      htail]

theorem replaceFirst_cons_none {needle repl : List Char} {c : Char} {cs : List Char}
    (h : stripLit needle (c :: cs) = none) :
    replaceFirst needle repl (c :: cs) = c :: replaceFirst needle repl cs := by
  conv_lhs => rw [replaceFirst]
  rw [h]

theorem replaceFirst_head_some {needle repl r : List Char} {c : Char} {cs : List Char}
    (h : stripLit needle (c :: cs) = some r) :
    replaceFirst needle repl (c :: cs) = repl ++ r := by
  conv_lhs => rw [replaceFirst]
  rw [h]

theorem replaceFirst_at {needle repl : List Char} :
    ∀ (p r : List Char), needle ≠ [] →
      (∀ q < p.length, stripLit needle ((p ++ (needle ++ r)).drop q) = none) →
      replaceFirst needle repl (p ++ (needle ++ r)) = p ++ (repl ++ r) := by
  intro p
  induction p with
  | nil =>
    intro r hne _
    obtain ⟨n0, ns, hn⟩ := List.exists_cons_of_ne_nil hne
    rw [List.nil_append, List.nil_append]
    have hform : needle ++ r = n0 :: (ns ++ r) := by rw [hn]; rfl
    rw [hform, replaceFirst_head_some
      (show stripLit needle (n0 :: (ns ++ r)) = some r by
        rw [← hform]; exact stripLit_append needle r)]
  | cons c p' ih =>
    intro r hne hq
    have h0 : stripLit needle (c :: (p' ++ (needle ++ r))) = none := by
      simpa using hq 0 (by simp)
    rw [List.cons_append, replaceFirst_cons_none h0,
      ih r hne (fun q hql => by simpa using hq (q + 1) (by simpa using Nat.succ_lt_succ hql))]
    rfl

theorem pomTag_length (y : List Char) : (pomTag y).length = y.length + 19 := by
  simp [pomTag, pomOpen, pomClose]

/-- Core overlap fact: if a POM pattern match starts strictly inside the
prefix `δ` of `δ ++ <version>x</version> ++ ρ`, then a match also starts at
the same position of `δ ++ <version>z</version> ++ ρ`: a match that reaches
into the tag region can only use the first nine characters `<version>`,
which the two strings share. -/
theorem pom_overlap {δ x ρ y rest : List Char} (z : List Char) (hδ : δ ≠ [])
    (hy : y ≠ []) (hyc : ∀ c ∈ y, isVerChar c = true)
    (heq : δ ++ (pomTag x ++ ρ) = pomTag y ++ rest) :
    ∃ y2 rest2, y2 ≠ [] ∧ (∀ c ∈ y2, isVerChar c = true) ∧
      δ ++ (pomTag z ++ ρ) = pomTag y2 ++ rest2 := by
  have hopen9 : pomOpen.length = 9 := rfl
  by_cases hcase : (pomTag y).length ≤ δ.length
  · -- the whole matched tag lies inside δ
    have htk : δ.take (pomTag y).length = pomTag y := by
      have h2 := congrArg (List.take (pomTag y).length) heq
      rw [List.take_append_eq_append_take, Nat.sub_eq_zero_of_le hcase, List.take_zero,
        List.append_nil, List.take_left] at h2
      exact h2
    refine ⟨y, δ.drop (pomTag y).length ++ (pomTag z ++ ρ), hy, hyc, ?_⟩
    conv_lhs => rw [← List.take_append_drop (pomTag y).length δ, htk]
    rw [List.append_assoc]
  · push_neg at hcase
    have hu : pomTag y = δ ++ (pomTag x ++ ρ).take ((pomTag y).length - δ.length) := by
      have h2 := congrArg (List.take (pomTag y).length) heq
      rw [List.take_append_eq_append_take, List.take_of_length_le (le_of_lt hcase),
        List.take_left] at h2
      exact h2.symm
    by_cases hsmall : (pomTag y).length - δ.length ≤ 9
    · -- the matched tag ends within the shared `<version>` head
      have htx : (pomTag x ++ ρ).take ((pomTag y).length - δ.length) =
          pomOpen.take ((pomTag y).length - δ.length) := by
        have hx1 : pomTag x ++ ρ = pomOpen ++ ((x ++ pomClose) ++ ρ) := by
          simp [pomTag, List.append_assoc]
        rw [hx1, List.take_append_of_le_length (by rw [hopen9]; exact hsmall)]
      have htz : (pomTag z ++ ρ).take ((pomTag y).length - δ.length) =
          pomOpen.take ((pomTag y).length - δ.length) := by
        have hz1 : pomTag z ++ ρ = pomOpen ++ ((z ++ pomClose) ++ ρ) := by
          simp [pomTag, List.append_assoc]
        rw [hz1, List.take_append_of_le_length (by rw [hopen9]; exact hsmall)]
      refine ⟨y, (pomTag z ++ ρ).drop ((pomTag y).length - δ.length), hy, hyc, ?_⟩
      conv_lhs =>
        rw [← List.take_append_drop ((pomTag y).length - δ.length) (pomTag z ++ ρ)]
      rw [htz, ← htx, ← List.append_assoc, ← hu]
    · -- impossible: a `<version>` head would sit strictly inside the tag
      exfalso
      push_neg at hsmall
      have hLk : δ.length + 10 ≤ (pomTag y).length := by omega
      have hdropk := congrArg (List.drop δ.length) heq
      rw [List.drop_left, List.drop_append_eq_append_drop,
        Nat.sub_eq_zero_of_le (le_of_lt hcase), List.drop_zero] at hdropk
      have htk2 := congrArg (List.take 2) hdropk
      rw [show (pomTag x ++ ρ).take 2 = ['<', 'v'] from rfl,
        List.take_append_of_le_length (by rw [List.length_drop]; omega)] at htk2
      have htk1 : (['<'] : List Char) = ((pomTag y).drop δ.length).take 1 := by
        have h3 := congrArg (List.take 1) htk2
        rw [List.take_take] at h3
        simpa using h3
      have hk1 : 1 ≤ δ.length := List.length_pos.mpr hδ
      have hky : δ.length ≤ 9 + y.length := by
        have := pomTag_length y
        omega
      by_cases h8 : δ.length ≤ 8
      · have hsplit : (pomTag y).drop δ.length = pomOpen.drop δ.length ++ (y ++ pomClose) := by
          show (pomOpen ++ (y ++ pomClose)).drop δ.length = _
          rw [List.drop_append_eq_append_drop,
            Nat.sub_eq_zero_of_le (by rw [hopen9]; omega), List.drop_zero]
        rw [hsplit] at htk1
        set k := δ.length with hkdef
        interval_cases k <;>
          · obtain ⟨hc, -⟩ := List.cons.inj htk1
            exact absurd hc (by decide)
      · push_neg at h8
        have hsplit : (pomTag y).drop δ.length =
            y.drop (δ.length - 9) ++ pomClose := by
          show (pomOpen ++ (y ++ pomClose)).drop δ.length = _
          rw [List.drop_append_eq_append_drop,
            List.drop_eq_nil_of_le (by rw [hopen9]; omega), List.nil_append, hopen9,
            List.drop_append_eq_append_drop,
            show δ.length - 9 - y.length = 0 from by omega, List.drop_zero]
        by_cases hin : δ.length - 9 < y.length
        · have hne2 : y.drop (δ.length - 9) ≠ [] := by
            rw [ne_eq, List.drop_eq_nil_iff]
            omega
          obtain ⟨d, ds, hd⟩ := List.exists_cons_of_ne_nil hne2
          have hdmem : d ∈ y := List.drop_subset _ _ (hd ▸ List.mem_cons_self d ds)
          have hdv : isVerChar d = true := hyc d hdmem
          rw [hsplit, hd] at htk1
          have htk1' : (['<'] : List Char) = d :: ([] : List Char) := htk1
          obtain ⟨hdeq, -⟩ := List.cons.inj htk1'
          rw [← hdeq] at hdv
          exact absurd hdv (by decide)
        · have hdnil : y.drop (δ.length - 9) = [] := by
            rw [List.drop_eq_nil_iff]
            omega
          rw [hsplit, hdnil, List.nil_append] at htk2
          exact absurd htk2 (by decide)

/-- Failure of the POM pattern strictly inside a prefix is preserved when
the tag content changes. -/
theorem tryPomAt_none_transfer {δ x ρ : List Char} (z : List Char) (hδ : δ ≠ [])
    (hnone : tryPomAt (δ ++ (pomTag x ++ ρ)) = none) :
    tryPomAt (δ ++ (pomTag z ++ ρ)) = none := by
  cases hw : tryPomAt (δ ++ (pomTag z ++ ρ)) with
  | none => rfl
  | some w =>
    exfalso
    obtain ⟨y1, r1⟩ := w
    obtain ⟨heq, hy1, hy1c⟩ := tryPomAt_some hw
    obtain ⟨y2, rest2, hy2, hy2c, heq2⟩ := pom_overlap x hδ hy1 hy1c heq
    rw [heq2, tryPomAt_tag rest2 hy2 hy2c] at hnone
    exact absurd hnone (by simp)

/-- C9, round-trip for the POM rewriter: when the first `pomRegex` match of
`content` captures `v` (so `content = p ++ <version>v</version> ++ r` with
no match starting inside `p`), the substitution
`content.replace(`<version>v</version>`, `<version>newV</version>`)`
replaces exactly that first occurrence — even if the old value appears
verbatim later in `r` — and re-extracting from the result recovers `newV`
exactly. -/
theorem pom_roundtrip (content newV p v r : List Char)
    (h : findPom content = some (p, v, r)) (hne : newV ≠ [])
    (hvc : ∀ c ∈ newV, isVerChar c = true) :
    pomSubst content v newV = p ++ (pomTag newV ++ r) ∧
    findPom (pomSubst content v newV) = some (p, newV, r) ∧
    pomMatch (pomSubst content v newV) = some newV := by
  obtain ⟨hcontent, hv, hvcv, hpos⟩ := findPom_some h
  have htagne : pomTag v ≠ [] := by simp [pomTag, pomOpen]
  have hnotin : ∀ q < p.length, stripLit (pomTag v) ((p ++ (pomTag v ++ r)).drop q) = none := by
    intro q hq
    cases hsl : stripLit (pomTag v) ((p ++ (pomTag v ++ r)).drop q) with
    | none => rfl
    | some w =>
      exfalso
      have hdec := stripLit_eq_some hsl
      have hsome : tryPomAt ((p ++ (pomTag v ++ r)).drop q) = some (v, w) := by
        rw [hdec]
        exact tryPomAt_tag w hv hvcv
      have h2 := hpos q hq
      rw [hcontent] at h2
      rw [h2] at hsome
      exact absurd hsome (by simp)
  have hsub : pomSubst content v newV = p ++ (pomTag newV ++ r) := by
    rw [pomSubst, hcontent]
    exact replaceFirst_at p r htagne hnotin
  have hfind : findPom (pomSubst content v newV) = some (p, newV, r) := by
    rw [hsub]
    apply findPom_of_first
    · intro q hq
      have hdq : (p ++ (pomTag newV ++ r)).drop q = p.drop q ++ (pomTag newV ++ r) := by
        rw [List.drop_append_eq_append_drop, Nat.sub_eq_zero_of_le (le_of_lt hq),
          List.drop_zero]
      have hdq2 : content.drop q = p.drop q ++ (pomTag v ++ r) := by
        rw [hcontent, List.drop_append_eq_append_drop, Nat.sub_eq_zero_of_le (le_of_lt hq),
          List.drop_zero]
      have hnon : tryPomAt (p.drop q ++ (pomTag v ++ r)) = none := by
        rw [← hdq2]
        exact hpos q hq
      rw [hdq]
      exact tryPomAt_none_transfer newV
        (by rw [ne_eq, List.drop_eq_nil_iff]; omega) hnon
    · exact tryPomAt_tag r hne hvc
  refine ⟨hsub, hfind, ?_⟩
  unfold pomMatch
  rw [hfind]
  rfl

/-- Witness for C9: a document in which the old version value occurs twice;
only the first occurrence is replaced and extraction recovers the new
version. -/
theorem pom_roundtrip_witness :
    pomSubst (chars "<a><version>1.2.3</version><version>1.2.3</version></a>")
        (chars "1.2.3") (chars "9.9.9") =
      chars "<a>" ++ (pomTag (chars "9.9.9") ++ chars "<version>1.2.3</version></a>") ∧
    findPom (pomSubst (chars "<a><version>1.2.3</version><version>1.2.3</version></a>")
        (chars "1.2.3") (chars "9.9.9")) =
      some (chars "<a>", chars "9.9.9", chars "<version>1.2.3</version></a>") ∧
    pomMatch (pomSubst (chars "<a><version>1.2.3</version><version>1.2.3</version></a>")
        (chars "1.2.3") (chars "9.9.9")) = some (chars "9.9.9") :=
  pom_roundtrip (chars "<a><version>1.2.3</version><version>1.2.3</version></a>")
    (chars "9.9.9") (chars "<a>") (chars "1.2.3")
    (chars "<version>1.2.3</version></a>")
    (by decide) (by decide) (by decide)

/-! ## Base64 (`util.js` `encode` / `decode`)

`encode(s) = Buffer.from(s).toString('base64')` and
`decode(s) = Buffer.from(s, 'base64').toString('utf-8')`.  A `Buffer` is a
byte sequence (the UTF-8 bytes of the string); the base64 layer is modelled
here over byte lists (`Nat` values below 256), with standard alphabet and
`=` padding as Node produces them. -/

/-- The base64 alphabet. -/
def b64Table : List Char :=
  ['A', 'B', 'C', 'D', 'E', 'F', 'G', 'H', 'I', 'J', 'K', 'L', 'M',
   'N', 'O', 'P', 'Q', 'R', 'S', 'T', 'U', 'V', 'W', 'X', 'Y', 'Z',
   'a', 'b', 'c', 'd', 'e', 'f', 'g', 'h', 'i', 'j', 'k', 'l', 'm',
   'n', 'o', 'p', 'q', 'r', 's', 't', 'u', 'v', 'w', 'x', 'y', 'z',
   '0', '1', '2', '3', '4', '5', '6', '7', '8', '9', '+', '/']

/-- The alphabet character of a sextet. -/
def b64Char (n : Nat) : Char := b64Table.getD n '='

/-- The sextet of an alphabet character. -/
def b64Index (c : Char) : Nat := b64Table.indexOf c

/-- `Buffer.prototype.toString('base64')`: three bytes become four
characters; a trailing byte becomes two characters plus `==`, two trailing
bytes three characters plus `=`. -/
def encode : List Nat → List Char
  | [] => []
  | [a] => [b64Char (a / 4), b64Char (a % 4 * 16), '=', '=']
  | [a, b] => [b64Char (a / 4), b64Char (a % 4 * 16 + b / 16), b64Char (b % 16 * 4), '=']
  | a :: b :: c :: rest =>
    b64Char (a / 4) :: b64Char (a % 4 * 16 + b / 16) :: b64Char (b % 16 * 4 + c / 64) ::
      b64Char (c % 64) :: encode rest

/-- `Buffer.from(s, 'base64')` on the output format of `encode`: four
characters back to three bytes, with `=` padding cutting the group short. -/
def decode : List Char → List Nat
  | c1 :: c2 :: c3 :: c4 :: rest =>
    if c3 = '=' then [b64Index c1 * 4 + b64Index c2 / 16]
    else if c4 = '=' then
      [b64Index c1 * 4 + b64Index c2 / 16, b64Index c2 % 16 * 16 + b64Index c3 / 4]
    else
      (b64Index c1 * 4 + b64Index c2 / 16) ::
        (b64Index c2 % 16 * 16 + b64Index c3 / 4) ::
        (b64Index c3 % 4 * 64 + b64Index c4) :: decode rest
  | _ => []

theorem sext_div {x y k : Nat} (hk : 0 < k) (hy : y < k) : (x * k + y) / k = x := by
  rw [Nat.add_comm, Nat.add_mul_div_right _ _ hk, Nat.div_eq_of_lt hy, Nat.zero_add]

theorem sext_mod {x y k : Nat} (hy : y < k) : (x * k + y) % k = y := by
  rw [Nat.add_comm, Nat.add_mul_mod_self_right, Nat.mod_eq_of_lt hy]

/-- Reassembling three bytes from their four sextets. -/
theorem b64_bytes3 {a b c : Nat} (_ha : a < 256) (hb : b < 256) (hc : c < 256) :
    a / 4 * 4 + (a % 4 * 16 + b / 16) / 16 = a ∧
    (a % 4 * 16 + b / 16) % 16 * 16 + (b % 16 * 4 + c / 64) / 4 = b ∧
    (b % 16 * 4 + c / 64) % 4 * 64 + c % 64 = c := by
  have h1 : (a % 4 * 16 + b / 16) / 16 = a % 4 := sext_div (by norm_num) (by omega)
  have h2 : (a % 4 * 16 + b / 16) % 16 = b / 16 := sext_mod (by omega)
  have h3 : (b % 16 * 4 + c / 64) / 4 = b % 16 := sext_div (by norm_num) (by omega)
  have h4 : (b % 16 * 4 + c / 64) % 4 = c / 64 := sext_mod (by omega)
  rw [h1, h2, h3, h4]
  omega

/-- Reassembling two bytes from their three sextets. -/
theorem b64_bytes2 {a b : Nat} (_ha : a < 256) (hb : b < 256) :
    a / 4 * 4 + (a % 4 * 16 + b / 16) / 16 = a ∧
    (a % 4 * 16 + b / 16) % 16 * 16 + b % 16 * 4 / 4 = b := by
  have h1 : (a % 4 * 16 + b / 16) / 16 = a % 4 := sext_div (by norm_num) (by omega)
  have h2 : (a % 4 * 16 + b / 16) % 16 = b / 16 := sext_mod (by omega)
  have h3 : b % 16 * 4 / 4 = b % 16 := Nat.mul_div_cancel _ (by norm_num)
  rw [h1, h2, h3]
  omega

/-- Reassembling one byte from its two sextets. -/
theorem b64_bytes1 {a : Nat} (_ha : a < 256) : a / 4 * 4 + a % 4 * 16 / 16 = a := by
  have h1 : a % 4 * 16 / 16 = a % 4 := Nat.mul_div_cancel _ (by norm_num)
  rw [h1]
  omega

theorem b64Index_b64Char : ∀ n : Nat, n < 64 → b64Index (b64Char n) = n := by decide

theorem b64Char_ne_pad : ∀ n : Nat, n < 64 → b64Char n ≠ '=' := by decide

/-- C10: the base64 encoder and decoder of `util.js` are mutually inverse on
every byte sequence, so file content survives the fetch/commit boundary
unchanged (the UTF-8 bytes of the text are recovered exactly). -/
theorem decode_encode : ∀ (bs : List Nat), (∀ b ∈ bs, b < 256) → decode (encode bs) = bs
  | [] => fun _ => rfl
  | [a] => fun h => by
    have ha : a < 256 := h a (by simp)
    show decode [b64Char (a / 4), b64Char (a % 4 * 16), '=', '='] = [a]
    rw [decode, if_pos rfl, b64Index_b64Char (a / 4) (by omega),
      b64Index_b64Char (a % 4 * 16) (by omega)]
    simp only [List.cons.injEq, and_true]
    exact b64_bytes1 ha
  | [a, b] => fun h => by
    have ha : a < 256 := h a (by simp)
    have hb : b < 256 := h b (by simp)
    show decode [b64Char (a / 4), b64Char (a % 4 * 16 + b / 16), b64Char (b % 16 * 4), '='] =
      [a, b]
    rw [decode, if_neg (b64Char_ne_pad (b % 16 * 4) (by omega)), if_pos rfl,
      b64Index_b64Char (a / 4) (by omega), b64Index_b64Char (a % 4 * 16 + b / 16) (by omega),
      b64Index_b64Char (b % 16 * 4) (by omega)]
    simp only [List.cons.injEq, and_true]
    exact b64_bytes2 ha hb
  | a :: b :: c :: d :: rest => fun h => by
    have ha : a < 256 := h a (by simp)
    have hb : b < 256 := h b (by simp)
    have hc : c < 256 := h c (by simp)
    have ih := decode_encode (d :: rest) (fun x hx => h x (by simp [List.mem_cons] at hx ⊢; tauto))
    show decode (b64Char (a / 4) :: b64Char (a % 4 * 16 + b / 16) ::
      b64Char (b % 16 * 4 + c / 64) :: b64Char (c % 64) :: encode (d :: rest)) =
      a :: b :: c :: d :: rest
    rw [decode, if_neg (b64Char_ne_pad (b % 16 * 4 + c / 64) (by omega)),
      if_neg (b64Char_ne_pad (c % 64) (by omega)),
      b64Index_b64Char (a / 4) (by omega), b64Index_b64Char (a % 4 * 16 + b / 16) (by omega),
      b64Index_b64Char (b % 16 * 4 + c / 64) (by omega), b64Index_b64Char (c % 64) (by omega),
      ih]
    simp only [List.cons.injEq, and_true]
    exact b64_bytes3 ha hb hc
  | [a, b, c] => fun h => by
    have ha : a < 256 := h a (by simp)
    have hb : b < 256 := h b (by simp)
    have hc : c < 256 := h c (by simp)
    show decode [b64Char (a / 4), b64Char (a % 4 * 16 + b / 16),
      b64Char (b % 16 * 4 + c / 64), b64Char (c % 64)] = [a, b, c]
    rw [decode, if_neg (b64Char_ne_pad (b % 16 * 4 + c / 64) (by omega)),
      if_neg (b64Char_ne_pad (c % 64) (by omega)),
      b64Index_b64Char (a / 4) (by omega), b64Index_b64Char (a % 4 * 16 + b / 16) (by omega),
      b64Index_b64Char (b % 16 * 4 + c / 64) (by omega), b64Index_b64Char (c % 64) (by omega)]
    simp only [List.cons.injEq, and_true]
    obtain ⟨e1, e2, e3⟩ := b64_bytes3 ha hb hc
    exact ⟨e1, e2, e3, rfl⟩

/-- Witness for C10 at the bytes of `"foo bar"` (the repository's own test
vector, `encode('foo bar') = 'Zm9vIGJhcg=='`). -/
theorem decode_encode_witness :
    (∀ b ∈ [102, 111, 111, 32, 98, 97, 114], b < 256) ∧
    decode (encode [102, 111, 111, 32, 98, 97, 114]) = [102, 111, 111, 32, 98, 97, 114] :=
  ⟨by decide, decode_encode [102, 111, 111, 32, 98, 97, 114] (by decide)⟩

example : encode [102, 111, 111] = chars "Zm9v" := by decide
example : encode [102, 111, 111, 32, 98, 97, 114] = chars "Zm9vIGJhcg==" := by decide
example : encode [102, 111, 111, 32, 98, 97, 114, 32, 98, 97, 122] =
    chars "Zm9vIGJhciBiYXo=" := by decide

example : pomMatch (chars "<project><version>1.2.3</version></project>") =
    some (chars "1.2.3") := by decide
example : pomMatch (chars "version=1.2.3") = none := by decide
example : gradleMatch (chars "version=1.2.3") = some (chars "1.2.3") := by decide
example : pomSubst (chars "<a><version>1.2.3</version></a>") (chars "1.2.3")
    (chars "1.2.4") = chars "<a><version>1.2.4</version></a>" := by decide
example : getNextVersion (chars "1.2.3") (chars "1.2.3") .major = .ok (chars "2.0.0") := by decide
example : getNextVersion (chars "1.2.3") (chars "1.2.3") .minor = .ok (chars "1.3.0") := by decide
example : getNextVersion (chars "1.2.3") (chars "1.2.3") .patch = .ok (chars "1.2.4") := by decide
example : getNextVersion (chars "1.2.3") (chars "1.2.4") .patch = .error .alreadyIncremented := by
  decide
example : getNextVersion (chars "2.0.0") (chars "1.2.3") .patch = .ok (chars "2.0.1") := by decide
example : getNextVersion (chars "1.2") (chars "1.2.0") .patch = .error .invalidMainVersion := by
  decide
example : getNextVersion (chars "x.y.z") (chars "x.y.z") .patch = .ok (chars "NaN.NaN.NaN") := by
  decide

end NextVersion
